import Mathlib

/-!
Verification of the ballistica base-object lifetime and thread-affinity core
(`src/ballistica/core/object.cc`) and the renderer-resource wrapper
(`src/ballistica/graphics/mesh/mesh_data.h`), as a shallow embedding.

Machine pointers are modelled as `Option Nat` (a `Nat` is an object / node
identity, `none` is the null pointer); heaps of intrusively linked records are
modelled as total functions `Nat → record`.  Debug-build-only code
(`BA_DEBUG_BUILD`) is embedded directly, since every claim concerns the debug
configuration.  C++ exceptions are modelled with `Except`.
-/

namespace Ballistica

/-- Thread role tags (`ThreadTag` in the source).  `kInvalid` is the unbound
marker used by the next-referencing ownership mode. -/
inductive ThreadTag where
  | kInvalid
  | kMain
  | kLogic
  | kAudio
  | kNetworkWrite
  | kAssets
  | kBGDynamics
  deriving DecidableEq, Repr, Fintype

/-- Thread-ownership modes of an object (`Object::ThreadOwnership`).  The two
constructors are the ones exercised by `object.cc`. -/
inductive ThreadOwnership where
  | kClassDefault
  | kNextReferencing
  deriving DecidableEq, Repr

/-- The ambient thread identity: which of the per-role predicates
(`InMainThread()`, `InLogicThread()`, ...) hold on the calling thread, plus the
thread's name (`GetCurrentThreadName()`). -/
structure ThreadEnv where
  inMain : Bool
  inLogic : Bool
  inAudio : Bool
  inNetworkWrite : Bool
  inAssets : Bool
  inBGDynamics : Bool
  threadName : String
  deriving DecidableEq, Repr

/-- `GetCurrentThreadName()` as seen by `object.cc`. -/
def GetCurrentThreadName (env : ThreadEnv) : String := env.threadName

/-- The role predicate of `env` selected by a tag (`kInvalid` matches no
thread). -/
def ThreadEnv.flagFor (env : ThreadEnv) : ThreadTag → Bool
  | .kInvalid => false
  | .kMain => env.inMain
  | .kLogic => env.inLogic
  | .kAudio => env.inAudio
  | .kNetworkWrite => env.inNetworkWrite
  | .kAssets => env.inAssets
  | .kBGDynamics => env.inBGDynamics

/-- The calling thread matches exactly the single role `r` (threads carry one
role for the life of the process). -/
def ThreadEnv.HasOnlyRole (env : ThreadEnv) (r : ThreadTag) : Prop :=
  env.flagFor r = true ∧ ∀ t, t ≠ r → env.flagFor t = false

/-- `GetCurrentThreadTag()` (static, `object.cc` lines 144-161): probes the
role predicates in order and throws `Exception("unrecognized thread: " + name)`
when none holds. -/
def GetCurrentThreadTag (env : ThreadEnv) : Except String ThreadTag :=
  if env.inMain then .ok .kMain
  else if env.inLogic then .ok .kLogic
  else if env.inAudio then .ok .kAudio
  else if env.inNetworkWrite then .ok .kNetworkWrite
  else if env.inAssets then .ok .kAssets
  else if env.inBGDynamics then .ok .kBGDynamics
  else .error ("unrecognized thread: " ++ GetCurrentThreadName env)

/-- The affinity-relevant per-instance state of an `Object`. -/
structure AffinityState where
  thread_checks_enabled_ : Bool
  thread_ownership_ : ThreadOwnership
  owner_thread_ : ThreadTag
  deriving DecidableEq, Repr

/-- `Object::GetDefaultOwnerThread()` (lines 129-131): base default is the
logic thread. -/
def Object.GetDefaultOwnerThread : ThreadTag := .kLogic

/-- `Object::GetThreadOwnership()` in a debug build (lines 133-140). -/
def Object.GetThreadOwnership (s : AffinityState) : ThreadOwnership :=
  s.thread_ownership_

/-- Modelled from the spec: `object.h` (with the member initializers of the
affinity fields) is not under `src/`; per §4.2 a `FirstReferencingThread`
instance is unbound at construction, so its owner tag starts as `kInvalid`. -/
def initialNextReferencing (checks : Bool) : AffinityState :=
  { thread_checks_enabled_ := checks
    thread_ownership_ := .kNextReferencing
    owner_thread_ := .kInvalid }

/-- `Object::ObjectUpdateForAcquire()` (lines 163-172): a next-referencing
object whose owner tag is still `kInvalid` adopts the current thread's tag;
otherwise the state is untouched.  A thrown `unrecognized thread` exception
propagates. -/
def Object.ObjectUpdateForAcquire (s : AffinityState) (env : ThreadEnv) :
    Except String AffinityState :=
  if Object.GetThreadOwnership s = .kNextReferencing ∧
      s.owner_thread_ = .kInvalid then
    match GetCurrentThreadTag env with
    | .ok t => .ok { s with owner_thread_ := t }
    | .error e => .error e
  else
    .ok s

/-- A C++ exception as thrown by `Object::ObjectThreadCheck()`: either the
`DO_FAIL` message or the bare `Exception()` of the default switch branch. -/
inductive BaException where
  | withMessage (msg : String)
  | noMessage
  deriving DecidableEq, Repr

/-- The effective required role of the thread check (lines 181-186): the
class-default role when ownership is `kClassDefault`, else the instance's
owner tag. -/
def effectiveRole (defaultOwner : ThreadTag) (s : AffinityState) : ThreadTag :=
  if Object.GetThreadOwnership s = .kClassDefault then defaultOwner
  else s.owner_thread_

/-- The `DO_FAIL` exception message of `Object::ObjectThreadCheck()`. -/
def doFailMessage (threadName : String) (desc : String) (env : ThreadEnv) :
    String :=
  "ObjectThreadCheck failed for " ++ desc ++ "; expected " ++ threadName
    ++ " thread; got " ++ GetCurrentThreadName env

/-- `Object::ObjectThreadCheck()` (lines 174-226).  `defaultOwner` stands for
the virtual `GetDefaultOwnerThread()` of the dynamic type; `desc` for
`GetObjectDescription()`.  The default switch branch (reached only for
`kInvalid`) throws a message-less `Exception()`. -/
def Object.ObjectThreadCheck (defaultOwner : ThreadTag) (s : AffinityState)
    (env : ThreadEnv) (desc : String) : Except BaException Unit :=
  if s.thread_checks_enabled_ = false then .ok ()
  else
    match effectiveRole defaultOwner s with
    | .kMain =>
        if env.inMain = false then
          .error (.withMessage (doFailMessage "Main" desc env))
        else .ok ()
    | .kLogic =>
        if env.inLogic = false then
          .error (.withMessage (doFailMessage "Logic" desc env))
        else .ok ()
    | .kAudio =>
        if env.inAudio = false then
          .error (.withMessage (doFailMessage "Audio" desc env))
        else .ok ()
    | .kNetworkWrite =>
        if env.inNetworkWrite = false then
          .error (.withMessage (doFailMessage "NetworkWrite" desc env))
        else .ok ()
    | .kAssets =>
        if env.inAssets = false then
          .error (.withMessage (doFailMessage "Assets" desc env))
        else .ok ()
    | .kBGDynamics =>
        if env.inBGDynamics = false then
          .error (.withMessage (doFailMessage "BGDynamics" desc env))
        else .ok ()
    | .kInvalid => .error .noMessage

/-- The spec-side name of each recognized role, as hardcoded at the six
`DO_FAIL` sites. -/
def threadTagName : ThreadTag → String
  | .kInvalid => "Invalid"
  | .kMain => "Main"
  | .kLogic => "Logic"
  | .kAudio => "Audio"
  | .kNetworkWrite => "NetworkWrite"
  | .kAssets => "Assets"
  | .kBGDynamics => "BGDynamics"

/-! ## Weak-reference chain and its invalidation at destruction -/

/-- A weak-reference node (`Object::WeakRefBase`-style): referent pointer and
intrusive prev/next links within the referent's weak chain.  Nodes live in a
heap `Nat → WeakRefNode` addressed by node identity. -/
structure WeakRefNode where
  obj_ : Option Nat
  prev_ : Option Nat
  next_ : Option Nat
  deriving DecidableEq, Repr

/-- A fully invalidated node: referent null, links cleared. -/
def clearedNode : WeakRefNode := { obj_ := none, prev_ := none, next_ := none }

/-- The weak-ref invalidation loop of `Object::~Object` (lines 110-116):
pop the head node, clear its referent and links, continue with its old `next_`.
The fuel argument bounds the traversal (the chain is finite and acyclic in any
well-formed heap). -/
def invalidateWeakRefs :
    Nat → (Nat → WeakRefNode) → Option Nat → (Nat → WeakRefNode) × Option Nat
  | 0, nodes, head => (nodes, head)
  | fuel + 1, nodes, head =>
    match head with
    | none => (nodes, none)
    | some tmp =>
      invalidateWeakRefs fuel (Function.update nodes tmp clearedNode)
        (nodes tmp).next_

/-- The heap's chain starting at pointer `head` consists exactly of the node
identities in `l`, linked in order by the `next_` fields. -/
def weakChainFrom (nodes : Nat → WeakRefNode) :
    Option Nat → List Nat → Prop
  | head, [] => head = none
  | head, x :: rest =>
      head = some x ∧ weakChainFrom nodes (nodes x).next_ rest

/-- Modelled from the spec: `Object::WeakRef::get()` lives in `object.h`,
which is not under `src/`; per §4.3 `get()` returns the referent pointer if
still live, else null — in the embedding a weak handle reads its node's
referent field. -/
def WeakRef.get (n : WeakRefNode) : Option Nat := n.obj_

/-! ## Debug registry: the global live-object list -/

/-- The intrusive registry links of one object (`object_prev_` /
`object_next_`). -/
structure RegObj where
  object_prev_ : Option Nat
  object_next_ : Option Nat
  deriving DecidableEq, Repr

/-- The process-wide debug registry (`g_app->object_list_first`,
`g_app->object_count`) together with the heap of per-object registry links. -/
structure AppRegistry where
  object_list_first : Option Nat
  object_count : Nat
  regs : Nat → RegObj

/-- The registry chain starting at pointer `head`, whose first node's
`object_prev_` must equal `prevPtr`, consists of the identities in `l` in
order, doubly linked. -/
def chainFrom (regs : Nat → RegObj) :
    Option Nat → Option Nat → List Nat → Prop
  | head, _, [] => head = none
  | head, prevPtr, x :: rest =>
      head = some x ∧ (regs x).object_prev_ = prevPtr ∧
        chainFrom regs (regs x).object_next_ (some x) rest

/-- Registry well-formedness: the live list reachable from
`object_list_first` is exactly `l` (duplicate-free) and the count matches. -/
def RegistryWf (app : AppRegistry) (l : List Nat) : Prop :=
  chainFrom app.regs app.object_list_first none l ∧ l.Nodup ∧
    app.object_count = l.length

/-- The debug-registry section of `Object::Object()` (lines 63-78): splice the
new object `w` at the head of the live list and increment the count. -/
def Object.construct (w : Nat) (app : AppRegistry) : AppRegistry :=
  let regs1 := Function.update app.regs w
    { object_prev_ := none, object_next_ := app.object_list_first }
  let regs2 :=
    match app.object_list_first with
    | some nxt =>
        Function.update regs1 nxt { regs1 nxt with object_prev_ := some w }
    | none => regs1
  { object_list_first := some w
    object_count := app.object_count + 1
    regs := regs2 }

/-- The unsplice of `Object::~Object` (lines 83-92) acting on the link heap:
first `object_next_->object_prev_ = object_prev_` (when a next exists), then
`object_prev_->object_next_ = object_next_` (when a prev exists). -/
def unspliceRegs (regs : Nat → RegObj) (x : Nat) : Nat → RegObj :=
  let regs1 :=
    match (regs x).object_next_ with
    | some nxt =>
        Function.update regs nxt
          { regs nxt with object_prev_ := (regs x).object_prev_ }
    | none => regs
  match (regs1 x).object_prev_ with
  | some prv =>
      Function.update regs1 prv
        { regs1 prv with object_next_ := (regs1 x).object_next_ }
  | none => regs1

/-- The debug-registry section of `Object::~Object` (lines 83-92): unsplice
object `x` from the live list (updating the head pointer when `x` had no
predecessor) and decrement the count. -/
def Object.unsplice (x : Nat) (app : AppRegistry) : AppRegistry :=
  let regs1 :=
    match (app.regs x).object_next_ with
    | some nxt =>
        Function.update app.regs nxt
          { app.regs nxt with object_prev_ := (app.regs x).object_prev_ }
    | none => app.regs
  match (regs1 x).object_prev_ with
  | some prv =>
      { object_list_first := app.object_list_first
        object_count := app.object_count - 1
        regs := Function.update regs1 prv
          { regs1 prv with object_next_ := (regs1 x).object_next_ } }
  | none =>
      { object_list_first := (regs1 x).object_next_
        object_count := app.object_count - 1
        regs := regs1 }

/-! ## The destructor's diagnostics and the full destruction sequence -/

/-- The exact `printf` text of the non-zero-ref-count warning
(`Object::~Object`, lines 97-100). -/
def refCountWarning : String :=
  "Warning: Object is dying with non-zero ref-count; this is bad. (this might mean the object raised an exception in its constructor after being strong-referenced first).\n"

/-- The destructor's sanity-check diagnostics (lines 95-101): one warning iff
the strong-reference count is non-zero. -/
def destructorDiagnostics (strongCount : Nat) : List String :=
  if strongCount ≠ 0 then [refCountWarning] else []

/-- The lifetime-relevant per-instance state of an `Object` at destruction. -/
structure ObjectState where
  object_strong_ref_count_ : Nat
  object_weak_refs_ : Option Nat
  deriving DecidableEq, Repr

/-- `Object::~Object` (lines 80-117) in full: unsplice from the registry,
emit the ref-count diagnostic when warranted, then invalidate the whole weak
chain.  Returns the updated registry, the diagnostics, and the final
(weak-node heap, weak-chain head) pair. -/
def Object.destruct (x : Nat) (app : AppRegistry) (s : ObjectState)
    (wnodes : Nat → WeakRefNode) (fuel : Nat) :
    AppRegistry × List String × ((Nat → WeakRefNode) × Option Nat) :=
  (Object.unsplice x app,
   destructorDiagnostics s.object_strong_ref_count_,
   invalidateWeakRefs fuel wnodes s.object_weak_refs_)

/-! ## The census (`Object::LsObjects`, lines 14-61) -/

/-- One step of the tally loop: `obj_map[obj_name]` is created at 1 or
incremented.  The association list keeps first-insertion order; the final
report is insensitive to this order because of the sort below. -/
def tallyInsert : List (String × Nat) → String → List (String × Nat)
  | [], name => [(name, 1)]
  | (k, c) :: rest, name =>
      if k = name then (k, c + 1) :: rest
      else (k, c) :: tallyInsert rest name

/-- The tally loop over the type names of the live list, in list order. -/
def tally (names : List String) : List (String × Nat) :=
  names.foldl tallyInsert []

/-- Lexicographic strict comparison of character lists by code point — the
order `std::string::operator<` computes byte-wise (identical on the ASCII
type names at play). -/
def charListLt : List Char → List Char → Bool
  | _, [] => false
  | [], _ :: _ => true
  | a :: as, b :: bs =>
      if a.toNat < b.toNat then true
      else if a.toNat = b.toNat then charListLt as bs
      else false

/-- `std::string` strict less-than. -/
def strLt (a b : String) : Bool := charListLt a.toList b.toList

/-- The order produced by `std::sort(sorted.rbegin(), sorted.rend())` on
`std::pair<int, std::string>`: `a` may precede `b` exactly when `a ≥ b` in
the lexicographic (count, name) order — greater counts first and, within a
count, greater names first. -/
def censusRel (a b : Nat × String) : Prop :=
  b.1 < a.1 ∨ (b.1 = a.1 ∧ strLt a.2 b.2 = false)

instance : DecidableRel censusRel := fun a b => by
  unfold censusRel; infer_instance

theorem charListLt_irrefl (x : List Char) : charListLt x x = false := by
  induction x with
  | nil => rfl
  | cons a as ih => simp [charListLt, ih]

theorem charListLt_trans :
    ∀ x y z : List Char, charListLt x y = true → charListLt y z = true →
      charListLt x z = true := by
  intro x
  induction x with
  | nil =>
    intro y z hxy hyz
    cases y with
    | nil => simp [charListLt] at hxy
    | cons b bs =>
      cases z with
      | nil => simp [charListLt] at hyz
      | cons c cs => simp [charListLt]
  | cons a as ih =>
    intro y z hxy hyz
    cases y with
    | nil => simp [charListLt] at hxy
    | cons b bs =>
      cases z with
      | nil => simp [charListLt] at hyz
      | cons c cs =>
        simp only [charListLt] at hxy hyz ⊢
        by_cases hab : a.toNat < b.toNat <;>
            by_cases hbc : b.toNat < c.toNat <;>
            by_cases hab2 : a.toNat = b.toNat <;>
            by_cases hbc2 : b.toNat = c.toNat <;>
            simp_all
        all_goals first
          | omega
          | exact ih bs cs hxy hyz

theorem charListLt_eq_of_not :
    ∀ x y : List Char, charListLt x y = false → charListLt y x = false →
      x = y := by
  intro x
  induction x with
  | nil =>
    intro y hxy _
    cases y with
    | nil => rfl
    | cons b bs => simp [charListLt] at hxy
  | cons a as ih =>
    intro y hxy hyx
    cases y with
    | nil => simp [charListLt] at hyx
    | cons b bs =>
      simp only [charListLt] at hxy hyx
      by_cases hab : a.toNat < b.toNat
      · simp [hab] at hxy
      · by_cases hba : b.toNat < a.toNat
        · simp [hba] at hyx
        · have heq : a.toNat = b.toNat := by omega
          have ha : a = b := Char.ext (UInt32.ext heq)
          subst ha
          simp [heq] at hxy hyx
          rw [ih bs hxy hyx]

instance : IsTotal (Nat × String) censusRel := by
  constructor
  intro a b
  unfold censusRel
  rcases Nat.lt_trichotomy a.1 b.1 with h | h | h
  · right; left; exact h
  · by_cases hs : strLt a.2 b.2 = false
    · left; right; exact ⟨h.symm, hs⟩
    · right; right
      refine ⟨h, ?_⟩
      by_contra hs2
      have h1 : strLt a.2 b.2 = true := by
        cases hval : strLt a.2 b.2 <;> simp_all
      have h2 : strLt b.2 a.2 = true := by
        cases hval : strLt b.2 a.2 <;> simp_all
      have := charListLt_trans _ _ _ h1 h2
      rw [charListLt_irrefl] at this
      exact Bool.false_ne_true this
  · left; left; exact h

instance : IsTrans (Nat × String) censusRel := by
  constructor
  intro a b c hab hbc
  unfold censusRel at hab hbc ⊢
  rcases hab with h1 | ⟨h1, hs1⟩ <;> rcases hbc with h2 | ⟨h2, hs2⟩
  · left; omega
  · left; omega
  · left; omega
  · right
    refine ⟨by omega, ?_⟩
    by_contra hs3
    have h3 : strLt a.2 c.2 = true := by
      cases hval : strLt a.2 c.2 <;> simp_all
    rcases hval : charListLt b.2.toList a.2.toList with _ | _
    · have hba : b.2.toList = a.2.toList :=
        charListLt_eq_of_not _ _ hval hs1
      have : strLt b.2 c.2 = true := by
        unfold strLt at h3 ⊢
        rw [hba]; exact h3
      simp_all
    · have : charListLt b.2.toList c.2.toList = true :=
        charListLt_trans _ _ _ hval h3
      have hcontra : strLt b.2 c.2 = true := this
      simp_all

/-- The sorted `(count, name)` pairs of the census: the tally entries, swapped
into `(count, name)` form and sorted descending.  `std::sort` leaves some
non-increasing permutation; since tallied names are distinct the pairs are
distinct and that permutation is unique, and insertion sort computes it. -/
def censusPairs (names : List String) : List (Nat × String) :=
  List.insertionSort censusRel ((tally names).map (fun p => (p.2, p.1)))

/-- The report string built by `Object::LsObjects` in a debug build:
total count and timestamp, then one indented `count: name` line per type. -/
def LsObjects (object_count : Nat) (time : Nat) (names : List String) :
    String :=
  let header :=
    toString object_count ++ " Objects at time " ++ toString time ++ ";"
  (censusPairs names).foldl
    (fun s p => s ++ "\n   " ++ toString p.1 ++ ": " ++ p.2) header

/-- The sum of the tallied counts. -/
def sumCounts (m : List (String × Nat)) : Nat := (m.map Prod.snd).sum

/-! ## The renderer-resource wrapper (`mesh_data.h`) -/

/-- `MeshData` (`mesh_data.h` lines 14-38).  It is a standalone class: its
only fields are the renderer-data pointer and the two type enums (modelled
abstractly as `Nat`, their definitions live outside `src/`).  It carries no
object-core state (no strong count, weak chain, or registry links) and
derives from nothing. -/
structure MeshData where
  renderer_data_ : Option Nat
  type_ : Nat
  draw_type_ : Nat
  deriving DecidableEq, Repr

/-- The exact error-log text of `MeshData::~MeshData` (line 20). -/
def meshLeakMessage : String := "MeshData going down with rendererData intact!"

/-- `MeshData::~MeshData` (lines 18-22): logs the leak error iff the renderer
data pointer is still set. -/
def MeshData.destructLog (m : MeshData) : List String :=
  if m.renderer_data_.isSome then [meshLeakMessage] else []

/-- Modelled from the spec: `MeshData::Unload`'s body (`mesh_data.cc`) is not
under `src/`; per §6 the wrapper must be unloaded before destruction so that
the destructor-time leak diagnostic does not fire — unload releases the
renderer data, clearing the pointer. -/
def MeshData.Unload (m : MeshData) : MeshData := { m with renderer_data_ := none }

/-! ## Concrete fixtures used to instantiate the hypotheses of the theorems -/

/-- A thread whose only role is the logic thread. -/
def envLogic : ThreadEnv :=
  { inMain := false, inLogic := true, inAudio := false, inNetworkWrite := false
    inAssets := false, inBGDynamics := false, threadName := "logic" }

/-- A thread whose only role is the audio thread. -/
def envAudio : ThreadEnv :=
  { inMain := false, inLogic := false, inAudio := true, inNetworkWrite := false
    inAssets := false, inBGDynamics := false, threadName := "audio" }

/-- A thread registered with none of the known roles. -/
def envWorker : ThreadEnv :=
  { inMain := false, inLogic := false, inAudio := false, inNetworkWrite := false
    inAssets := false, inBGDynamics := false, threadName := "FancyWorkerThread" }

/-- A class-default object with thread checks on. -/
def classDefaultEnabled : AffinityState :=
  { thread_checks_enabled_ := true, thread_ownership_ := .kClassDefault
    owner_thread_ := .kInvalid }

/-- An object whose per-instance thread checks are switched off. -/
def disabledState : AffinityState :=
  { thread_checks_enabled_ := false, thread_ownership_ := .kClassDefault
    owner_thread_ := .kInvalid }

/-- A next-referencing object already bound to the audio thread. -/
def boundAudioState : AffinityState :=
  { thread_checks_enabled_ := true, thread_ownership_ := .kNextReferencing
    owner_thread_ := .kAudio }

/-- A two-node weak chain (nodes `0` and `1`, both observing object `9`). -/
def witnessNodes : Nat → WeakRefNode := fun i =>
  if i = 0 then { obj_ := some 9, prev_ := none, next_ := some 1 }
  else if i = 1 then { obj_ := some 9, prev_ := some 0, next_ := none }
  else clearedNode

/-- A registry holding the single live object `3`. -/
def witnessApp : AppRegistry :=
  { object_list_first := some 3
    object_count := 1
    regs := fun _ => { object_prev_ := none, object_next_ := none } }

/-! ## Chain lemmas: weak-ref invalidation -/

theorem weakChainFrom_congr (nodes nodes' : Nat → WeakRefNode) :
    ∀ (head : Option Nat) (l : List Nat),
      (∀ x ∈ l, nodes' x = nodes x) →
      weakChainFrom nodes head l → weakChainFrom nodes' head l := by
  intro head l
  induction l generalizing head with
  | nil => intro _ h; exact h
  | cons x rest ih =>
    intro hagree h
    obtain ⟨hhead, hrest⟩ := h
    refine ⟨hhead, ?_⟩
    rw [hagree x (by simp)]
    exact ih _ (fun y hy => hagree y (by simp [hy])) hrest

theorem invalidateWeakRefs_spec :
    ∀ (l : List Nat) (nodes : Nat → WeakRefNode) (head : Option Nat)
      (fuel : Nat),
      weakChainFrom nodes head l → l.Nodup → l.length ≤ fuel →
      (invalidateWeakRefs fuel nodes head).2 = none ∧
      (∀ x ∈ l, (invalidateWeakRefs fuel nodes head).1 x = clearedNode) ∧
      (∀ y, y ∉ l → (invalidateWeakRefs fuel nodes head).1 y = nodes y) := by
  intro l
  induction l with
  | nil =>
    intro nodes head fuel hwf _ _
    have hh : head = none := hwf
    subst hh
    cases fuel <;> simp [invalidateWeakRefs]
  | cons x rest ih =>
    intro nodes head fuel hwf hnd hfuel
    obtain ⟨hhead, hrest⟩ := hwf
    subst hhead
    cases fuel with
    | zero => simp at hfuel
    | succ k =>
      have hx_notin : x ∉ rest := (List.nodup_cons.mp hnd).1
      have hrest' :
          weakChainFrom (Function.update nodes x clearedNode)
            (nodes x).next_ rest := by
        refine weakChainFrom_congr _ _ _ _ (fun y hy => ?_) hrest
        have : y ≠ x := by rintro rfl; exact hx_notin hy
        simp [Function.update, this]
      obtain ⟨h1, h2, h3⟩ :=
        ih (Function.update nodes x clearedNode) (nodes x).next_ k hrest'
          (List.nodup_cons.mp hnd).2 (Nat.succ_le_succ_iff.mp hfuel)
      simp only [invalidateWeakRefs]
      refine ⟨h1, ?_, ?_⟩
      · intro y hy
        rcases List.mem_cons.mp hy with rfl | hy'
        · rw [h3 y hx_notin]
          simp [Function.update]
        · exact h2 y hy'
      · intro y hy
        have hyx : y ≠ x := by rintro rfl; exact hy (by simp)
        have hyrest : y ∉ rest := fun h => hy (by simp [h])
        rw [h3 y hyrest]
        simp [Function.update, hyx]

/-! ## Chain lemmas: registry splice and unsplice -/

theorem chainFrom_congr (regs regs' : Nat → RegObj) :
    ∀ (head prevPtr : Option Nat) (l : List Nat),
      (∀ x ∈ l, regs' x = regs x) →
      chainFrom regs head prevPtr l → chainFrom regs' head prevPtr l := by
  intro head prevPtr l
  induction l generalizing head prevPtr with
  | nil => intro _ h; exact h
  | cons x rest ih =>
    intro hagree h
    obtain ⟨hhead, hprev, hrest⟩ := h
    refine ⟨hhead, ?_, ?_⟩
    · rw [hagree x (by simp)]; exact hprev
    · rw [hagree x (by simp)]
      exact ih _ _ (fun y hy => hagree y (by simp [hy])) hrest

theorem chainFrom_prev_mem (regs : Nat → RegObj) (x : Nat) (l2 : List Nat) :
    ∀ (l1 : List Nat) (head prevPtr : Option Nat),
      chainFrom regs head prevPtr (l1 ++ x :: l2) →
      (l1 = [] ∧ (regs x).object_prev_ = prevPtr) ∨
        (∃ c ∈ l1, (regs x).object_prev_ = some c) := by
  intro l1
  induction l1 with
  | nil =>
    intro head prevPtr h
    exact Or.inl ⟨rfl, h.2.1⟩
  | cons a rest ih =>
    intro head prevPtr h
    obtain ⟨_, _, hrest⟩ := h
    rcases ih _ _ hrest with ⟨hnil, hp⟩ | ⟨c, hc, hp⟩
    · subst hnil; exact Or.inr ⟨a, by simp, hp⟩
    · exact Or.inr ⟨c, by simp [hc], hp⟩

theorem chainFrom_next_at (regs : Nat → RegObj) (x : Nat) (l2 : List Nat) :
    ∀ (l1 : List Nat) (head prevPtr : Option Nat),
      chainFrom regs head prevPtr (l1 ++ x :: l2) →
      (l2 = [] ∧ (regs x).object_next_ = none) ∨
        (∃ n rest, l2 = n :: rest ∧ (regs x).object_next_ = some n) := by
  intro l1
  induction l1 with
  | nil =>
    intro head prevPtr h
    obtain ⟨_, _, hrest⟩ := h
    cases l2 with
    | nil => exact Or.inl ⟨rfl, hrest⟩
    | cons n rest => exact Or.inr ⟨n, rest, rfl, hrest.1⟩
  | cons a r ih =>
    intro head prevPtr h
    exact ih _ _ h.2.2

theorem unspliceRegs_eval (regs : Nat → RegObj) (x : Nat)
    (hnx : ∀ n, (regs x).object_next_ = some n → n ≠ x)
    (hpx : ∀ p, (regs x).object_prev_ = some p →
      p ≠ x ∧ ∀ n, (regs x).object_next_ = some n → p ≠ n) :
    (∀ n, (regs x).object_next_ = some n →
        unspliceRegs regs x n =
          { regs n with object_prev_ := (regs x).object_prev_ }) ∧
    (∀ p, (regs x).object_prev_ = some p →
        unspliceRegs regs x p =
          { regs p with object_next_ := (regs x).object_next_ }) ∧
    (∀ y, some y ≠ (regs x).object_next_ → some y ≠ (regs x).object_prev_ →
        unspliceRegs regs x y = regs y) := by
  unfold unspliceRegs
  cases hnext : (regs x).object_next_ with
  | none =>
    simp only
    cases hprev : (regs x).object_prev_ with
    | none =>
      exact ⟨fun n hn => by simp at hn, fun p hp => by simp at hp,
        fun y _ _ => rfl⟩
    | some p =>
      refine ⟨fun n hn => by simp at hn, fun q hq => ?_, fun y hy1 hy2 => ?_⟩
      · obtain rfl : p = q := by simpa using hq
        simp [Function.update, hnext]
      · have hyp : y ≠ p := fun h => hy2 (by rw [h])
        simp [Function.update, hyp]
  | some nxt =>
    have hnx1 : nxt ≠ x := hnx nxt hnext
    simp only
    have hr1x : Function.update regs nxt
        { regs nxt with object_prev_ := (regs x).object_prev_ } x = regs x := by
      simp [Function.update, Ne.symm hnx1]
    rw [hr1x]
    cases hprev : (regs x).object_prev_ with
    | none =>
      refine ⟨fun n hn => ?_, fun p hp => by simp at hp,
        fun y hy1 hy2 => ?_⟩
      · obtain rfl : nxt = n := by simpa using hn
        simp [Function.update, hprev]
      · have hyn : y ≠ nxt := fun h => hy1 (by rw [h])
        simp [Function.update, hyn]
    | some p =>
      obtain ⟨hpx1, hpn⟩ := hpx p hprev
      have hpn1 : p ≠ nxt := hpn nxt hnext
      refine ⟨fun n hn => ?_, fun q hq => ?_, fun y hy1 hy2 => ?_⟩
      · obtain rfl : nxt = n := by simpa using hn
        simp [Function.update, hpn1, Ne.symm hpn1, hprev]
      · obtain rfl : p = q := by simpa using hq
        simp [Function.update, hpn1, hnext]
      · have hyn : y ≠ nxt := fun h => hy1 (by rw [h])
        have hyp : y ≠ p := fun h => hy2 (by rw [h])
        simp [Function.update, hyn, hyp]

theorem chainFrom_unsplice_aux (regs regs' : Nat → RegObj) (x : Nat)
    (l2 : List Nat)
    (hnext : ∀ n, (regs x).object_next_ = some n →
        regs' n = { regs n with object_prev_ := (regs x).object_prev_ })
    (hprev : ∀ p, (regs x).object_prev_ = some p →
        regs' p = { regs p with object_next_ := (regs x).object_next_ })
    (hother : ∀ y, some y ≠ (regs x).object_next_ →
        some y ≠ (regs x).object_prev_ → regs' y = regs y) :
    ∀ (l1 : List Nat) (head prevPtr : Option Nat),
      (l1 ++ x :: l2).Nodup →
      (∀ p, prevPtr = some p → p ∉ x :: l2) →
      chainFrom regs head prevPtr (l1 ++ x :: l2) →
      chainFrom regs'
        (if l1 = [] then (regs x).object_next_ else head) prevPtr
        (l1 ++ l2) := by
  intro l1
  induction l1 with
  | nil =>
    intro head prevPtr hnd hpv hchain
    obtain ⟨hhead, hxprev, hrest⟩ := hchain
    simp only [List.nil_append, if_pos rfl]
    cases l2 with
    | nil =>
      have hxnext : (regs x).object_next_ = none := hrest
      simpa [chainFrom] using hxnext
    | cons n l2' =>
      obtain ⟨hxnext, hnprev, hrest'⟩ := hrest
      have hxn : x ≠ n := by
        intro h
        exact (List.nodup_cons.mp hnd).1 (by simp [h])
      have hnd2 : (n :: l2').Nodup := (List.nodup_cons.mp hnd).2
      refine ⟨hxnext, ?_, ?_⟩
      · rw [hnext n hxnext]
        exact hxprev
      · rw [hnext n hxnext]
        simp only
        refine chainFrom_congr regs regs' _ _ _ (fun y hy => ?_) hrest'
        have hyn : y ≠ n := fun h => (List.nodup_cons.mp hnd2).1 (h ▸ hy)
        refine hother y ?_ ?_
        · rw [hxnext]; exact fun h => hyn (by simpa using h)
        · rw [hxprev]
          intro h
          rcases prevPtr with _ | p
          · simp at h
          · obtain rfl : y = p := by simpa using h
            exact hpv y rfl (by simp [hy])
  | cons a l1' ih =>
    intro head prevPtr hnd hpv hchain
    obtain ⟨hhead, haprev, hrest⟩ := hchain
    have hnd' : (l1' ++ x :: l2).Nodup := (List.nodup_cons.mp hnd).2
    have hanotin : a ∉ l1' ++ x :: l2 := (List.nodup_cons.mp hnd).1
    have hax : a ≠ x := fun h => hanotin (by simp [h])
    have hal2 : a ∉ l2 := fun h => hanotin (by simp [h])
    have hal1 : a ∉ l1' := fun h => hanotin (by simp [h])
    have hpv' : ∀ p, (some a : Option Nat) = some p → p ∉ x :: l2 := by
      intro p hp
      obtain rfl : a = p := by simpa using hp
      intro hmem
      rcases List.mem_cons.mp hmem with rfl | hmem'
      · exact hax rfl
      · exact hal2 hmem'
    have hih := ih ((regs a).object_next_) (some a) hnd' hpv' hrest
    -- establish how the unsplice acted on node a
    rcases chainFrom_prev_mem regs x l2 l1' _ _ hrest with ⟨hl1nil, hxprev⟩ |
      ⟨c, hcmem, hxprev⟩
    · -- l1' = [] : a is x's predecessor, its next field is rewritten
      subst hl1nil
      have hxpa : (regs x).object_prev_ = some a := hxprev
      have ha' : regs' a = { regs a with object_next_ := (regs x).object_next_ } :=
        hprev a hxpa
      simp only [List.cons_append, List.nil_append, if_neg (by simp :
        ¬(a :: ([] : List Nat)) = [])] at hih ⊢
      refine ⟨hhead, ?_, ?_⟩
      · rw [ha']; exact haprev
      · rw [ha']
        simp only
        simpa using hih
    · -- l1' ≠ [] : a is untouched
      have hac : a ≠ c := fun h => hal1 (h ▸ hcmem)
      have ha' : regs' a = regs a := by
        refine hother a ?_ ?_
        · intro h
          rcases chainFrom_next_at regs x l2 l1' _ _ hrest with ⟨_, hxn⟩ |
            ⟨n, rest, hl2eq, hxn⟩
          · rw [hxn] at h; simp at h
          · rw [hxn] at h
            obtain rfl : a = n := by simpa using h
            exact hal2 (by simp [hl2eq])
        · rw [hxprev]
          intro h
          exact hac (by simpa using h)
      have hl1ne : ¬(l1' = []) := by
        rintro rfl
        simp at hcmem
      simp only [List.cons_append, if_neg (by simp : ¬(a :: l1') = [])]
      rw [if_neg hl1ne] at hih
      refine ⟨hhead, ?_, ?_⟩
      · rw [ha']; exact haprev
      · rw [ha']
        exact hih

theorem unsplice_regs (x : Nat) (app : AppRegistry) :
    (Object.unsplice x app).regs = unspliceRegs app.regs x := by
  unfold Object.unsplice unspliceRegs
  cases h1 : (app.regs x).object_next_ with
  | none =>
    simp only
    cases h2 : (app.regs x).object_prev_ <;> simp
  | some nxt =>
    simp only
    cases h2 : ((Function.update app.regs nxt
        { app.regs nxt with object_prev_ := (app.regs x).object_prev_ })
          x).object_prev_ <;> simp

theorem unsplice_count (x : Nat) (app : AppRegistry) :
    (Object.unsplice x app).object_count = app.object_count - 1 := by
  unfold Object.unsplice
  cases h1 : (app.regs x).object_next_ with
  | none =>
    simp only
    cases h2 : (app.regs x).object_prev_ <;> simp
  | some nxt =>
    simp only
    cases h2 : ((Function.update app.regs nxt
        { app.regs nxt with object_prev_ := (app.regs x).object_prev_ })
          x).object_prev_ <;> simp

theorem unsplice_first (x : Nat) (app : AppRegistry)
    (hnx : ∀ n, (app.regs x).object_next_ = some n → n ≠ x) :
    (Object.unsplice x app).object_list_first =
      match (app.regs x).object_prev_ with
      | some _ => app.object_list_first
      | none => (app.regs x).object_next_ := by
  unfold Object.unsplice
  cases h1 : (app.regs x).object_next_ with
  | none =>
    simp only
    cases h2 : (app.regs x).object_prev_ <;> simp [h1, h2]
  | some nxt =>
    have hx : Function.update app.regs nxt
        { app.regs nxt with object_prev_ := (app.regs x).object_prev_ } x
          = app.regs x := by
      simp [Function.update, Ne.symm (hnx nxt h1)]
    simp only [hx]
    cases h2 : (app.regs x).object_prev_ <;> simp [h1, h2]

theorem registryWf_unsplice (app : AppRegistry) (x : Nat) (l1 l2 : List Nat)
    (hwf : RegistryWf app (l1 ++ x :: l2)) :
    RegistryWf (Object.unsplice x app) (l1 ++ l2) := by
  obtain ⟨hchain, hnd, hcount⟩ := hwf
  have hxl1 : x ∉ l1 := by
    intro h
    have := (List.nodup_append.mp hnd).2.2
    exact this h (by simp)
  have hxl2 : x ∉ l2 := by
    have := (List.nodup_append.mp hnd).2.1
    exact (List.nodup_cons.mp this).1
  have hnx : ∀ n, (app.regs x).object_next_ = some n → n ≠ x := by
    intro n hn h
    rcases chainFrom_next_at app.regs x l2 l1 _ _ hchain with ⟨_, hxn⟩ |
      ⟨m, rest, hl2, hxn⟩
    · rw [hxn] at hn; cases hn
    · rw [hxn] at hn
      obtain rfl : m = n := by simpa using hn
      apply hxl2
      rw [← h]
      simp [hl2]
  have hpx : ∀ p, (app.regs x).object_prev_ = some p →
      p ≠ x ∧ ∀ n, (app.regs x).object_next_ = some n → p ≠ n := by
    intro p hp
    rcases chainFrom_prev_mem app.regs x l2 l1 _ _ hchain with ⟨_, hxp⟩ |
      ⟨c, hcmem, hxp⟩
    · rw [hxp] at hp; cases hp
    · rw [hxp] at hp
      obtain rfl : c = p := by simpa using hp
      constructor
      · rintro rfl; exact hxl1 hcmem
      · intro n hn h
        subst h
        rcases chainFrom_next_at app.regs x l2 l1 _ _ hchain with ⟨_, hxn⟩ |
          ⟨m, rest, hl2, hxn⟩
        · rw [hxn] at hn; cases hn
        · rw [hxn] at hn
          obtain rfl : m = c := by simpa using hn
          have hdisj := (List.nodup_append.mp hnd).2.2
          exact hdisj hcmem (by simp [hl2])
  obtain ⟨he1, he2, he3⟩ := unspliceRegs_eval app.regs x hnx hpx
  have hchain' := chainFrom_unsplice_aux app.regs (unspliceRegs app.regs x) x
    l2 he1 he2 he3 l1 app.object_list_first none hnd (by simp) hchain
  refine ⟨?_, ?_, ?_⟩
  · rw [unsplice_regs, unsplice_first x app hnx]
    cases l1 with
    | nil =>
      have hxp : (app.regs x).object_prev_ = none := hchain.2.1
      rw [hxp]
      simpa using hchain'
    | cons a l1' =>
      rcases chainFrom_prev_mem app.regs x l2 (a :: l1') _ _ hchain with
        ⟨h, _⟩ | ⟨c, _, hxp⟩
      · cases h
      · rw [hxp]
        simpa using hchain'
  · have hsub : (l1 ++ l2).Sublist (l1 ++ x :: l2) :=
      (List.sublist_cons_self x l2).append_left l1
    exact hnd.sublist hsub
  · rw [unsplice_count, hcount]
    simp [List.length_append]

theorem registryWf_construct (app : AppRegistry) (l : List Nat) (w : Nat)
    (hwf : RegistryWf app l) (hw : w ∉ l) :
    RegistryWf (Object.construct w app) (w :: l) := by
  obtain ⟨hchain, hnd, hcount⟩ := hwf
  refine ⟨?_, List.nodup_cons.mpr ⟨hw, hnd⟩, by simp [Object.construct, hcount]⟩
  unfold Object.construct
  cases l with
  | nil =>
    have hfirst : app.object_list_first = none := hchain
    rw [hfirst]
    simp [chainFrom, Function.update]
  | cons n rest =>
    obtain ⟨hfirst, hnprev, hrest⟩ := hchain
    have hwn : w ≠ n := fun h => hw (by simp [h])
    rw [hfirst]
    simp only
    set regs1 := Function.update app.regs w
      { object_prev_ := none, object_next_ := some n } with hregs1
    set regs2 := Function.update regs1 n
      { regs1 n with object_prev_ := some w } with hregs2
    have hr2w : regs2 w = { object_prev_ := none, object_next_ := some n } := by
      rw [hregs2, hregs1]
      simp [Function.update, hwn]
    have hr1n : regs1 n = app.regs n := by
      rw [hregs1]
      simp [Function.update, Ne.symm hwn]
    have hr2n : regs2 n = { app.regs n with object_prev_ := some w } := by
      rw [hregs2]
      simp [Function.update, hr1n]
    refine ⟨rfl, ?_, ?_⟩
    · rw [hr2w]
    · rw [hr2w]
      simp only
      refine ⟨rfl, by rw [hr2n], ?_⟩
      rw [hr2n]
      simp only
      refine chainFrom_congr app.regs regs2 _ _ _ (fun y hy => ?_) hrest
      have hyn : y ≠ n := fun h =>
        (List.nodup_cons.mp hnd).1 (h ▸ hy)
      have hyw : y ≠ w := fun h => hw (by simp [h ▸ hy])
      rw [hregs2, hregs1]
      simp [Function.update, hyn, hyw]

/-! ## Census lemmas -/

theorem sumCounts_tallyInsert (m : List (String × Nat)) (name : String) :
    sumCounts (tallyInsert m name) = sumCounts m + 1 := by
  induction m with
  | nil => rfl
  | cons kv rest ih =>
    obtain ⟨k, c⟩ := kv
    by_cases h : k = name <;> simp [tallyInsert, h, sumCounts] at ih ⊢ <;> omega

theorem sumCounts_tally (names : List String) :
    sumCounts (tally names) = names.length := by
  suffices h : ∀ acc, sumCounts (names.foldl tallyInsert acc) =
      sumCounts acc + names.length by
    simpa [tally, sumCounts] using h []
  induction names with
  | nil => intro acc; simp
  | cons n rest ih =>
    intro acc
    simp only [List.foldl_cons]
    rw [ih (tallyInsert acc n), sumCounts_tallyInsert]
    simp [List.length_cons]
    omega

/-! ## Helper facts about the thread identity query -/

theorem getCurrentThreadTag_ne_invalid (env : ThreadEnv) (r : ThreadTag)
    (h : GetCurrentThreadTag env = .ok r) : r ≠ .kInvalid := by
  intro hr
  subst hr
  unfold GetCurrentThreadTag at h
  split_ifs at h <;> simp at h

/-! ## The claims -/

/-- Claim C1: when the destructor's weak-ref invalidation loop completes,
every node that was linked in the object's weak chain has its referent set to
null and its prev/next links cleared, the chain head is null, and a weak
reference's next `get` on any such node observes a null referent. -/
theorem destructor_invalidates_weak_refs (nodes : Nat → WeakRefNode)
    (head : Option Nat) (l : List Nat) (fuel : Nat)
    (hwf : weakChainFrom nodes head l) (hnd : l.Nodup)
    (hfuel : l.length ≤ fuel) :
    (invalidateWeakRefs fuel nodes head).2 = none ∧
    (∀ x ∈ l, (invalidateWeakRefs fuel nodes head).1 x = clearedNode) ∧
    (∀ x ∈ l,
        WeakRef.get ((invalidateWeakRefs fuel nodes head).1 x) = none) := by
  obtain ⟨h1, h2, h3⟩ :=
    invalidateWeakRefs_spec l nodes head fuel hwf hnd hfuel
  exact ⟨h1, h2, fun x hx => by rw [h2 x hx]; rfl⟩

/-- Witness for C1 on the concrete two-node chain. -/
theorem destructor_invalidates_weak_refs_witness :
    (invalidateWeakRefs 2 witnessNodes (some 0)).2 = none ∧
    (∀ x ∈ [0, 1], (invalidateWeakRefs 2 witnessNodes (some 0)).1 x =
        clearedNode) ∧
    (∀ x ∈ [0, 1],
        WeakRef.get ((invalidateWeakRefs 2 witnessNodes (some 0)).1 x) =
          none) :=
  destructor_invalidates_weak_refs witnessNodes (some 0) [0, 1] 2
    (by simp [weakChainFrom, witnessNodes]) (by decide) (by decide)

/-- Claim C2: in debug builds the census tallies live objects by type name,
sorts the (count, name) groups descending by count (ties broken by name), and
emits total count, timestamp, then each type with its count; on live types
tallying to A: 3, B: 1, C: 3 the report lists C and A (3 each) before B, and
the tallied total matches the live count. -/
theorem lsObjects_census_correct :
    (∀ names : List String,
        List.Sorted censusRel (censusPairs names) ∧
        (censusPairs names).Perm ((tally names).map (fun p => (p.2, p.1))) ∧
        sumCounts (tally names) = names.length) ∧
    censusPairs ["A", "A", "A", "B", "C", "C", "C"] =
      [(3, "C"), (3, "A"), (1, "B")] ∧
    LsObjects 7 0 ["A", "A", "A", "B", "C", "C", "C"] =
      "7 Objects at time 0;\n   3: C\n   3: A\n   1: B" := by
  refine ⟨fun names => ⟨?_, ?_, sumCounts_tally names⟩, by decide, by decide⟩
  · exact List.sorted_insertionSort censusRel _
  · exact List.perm_insertionSort censusRel _

/-- Claim C3: destruction completes for any strong count (the registry is
updated and the weak chain fully invalidated), and the ref-count warning is
emitted iff the count is non-zero. -/
theorem destruction_completes_warning_iff (x : Nat) (app : AppRegistry)
    (s : ObjectState) (wnodes : Nat → WeakRefNode) (fuel : Nat)
    (l1 l2 wl : List Nat)
    (hreg : RegistryWf app (l1 ++ x :: l2))
    (hw : weakChainFrom wnodes s.object_weak_refs_ wl) (hnd : wl.Nodup)
    (hfuel : wl.length ≤ fuel) :
    ((Object.destruct x app s wnodes fuel).2.1 ≠ [] ↔
        0 < s.object_strong_ref_count_) ∧
    (s.object_strong_ref_count_ = 0 →
        (Object.destruct x app s wnodes fuel).2.1 = []) ∧
    RegistryWf (Object.destruct x app s wnodes fuel).1 (l1 ++ l2) ∧
    (Object.destruct x app s wnodes fuel).2.2.2 = none := by
  obtain ⟨h1, _, _⟩ :=
    invalidateWeakRefs_spec wl wnodes s.object_weak_refs_ fuel hw hnd hfuel
  refine ⟨?_, ?_, registryWf_unsplice app x l1 l2 hreg, h1⟩
  · unfold Object.destruct destructorDiagnostics
    by_cases h : s.object_strong_ref_count_ = 0
    · simp [h]
    · simp [h]
      omega
  · intro h
    simp [Object.destruct, destructorDiagnostics, h]

/-- Witness for C3 on a singleton registry with no weak refs. -/
theorem destruction_completes_warning_iff_witness :
    RegistryWf
      (Object.destruct 3 witnessApp
        { object_strong_ref_count_ := 0, object_weak_refs_ := none }
        (fun _ => clearedNode) 0).1 ([] ++ []) ∧
    (Object.destruct 3 witnessApp
      { object_strong_ref_count_ := 0, object_weak_refs_ := none }
      (fun _ => clearedNode) 0).2.1 = [] :=
  ⟨(destruction_completes_warning_iff 3 witnessApp
      { object_strong_ref_count_ := 0, object_weak_refs_ := none }
      (fun _ => clearedNode) 0 [] [] []
      ⟨by simp [chainFrom, witnessApp], by decide, rfl⟩ rfl (by decide)
      (by decide)).2.2.1,
   (destruction_completes_warning_iff 3 witnessApp
      { object_strong_ref_count_ := 0, object_weak_refs_ := none }
      (fun _ => clearedNode) 0 [] [] []
      ⟨by simp [chainFrom, witnessApp], by decide, rfl⟩ rfl (by decide)
      (by decide)).2.1 rfl⟩

/-- Claim C7: in debug builds construction splices the new instance at the
head of the live list and increments the count by one, and destruction
unsplices exactly the dying instance and decrements the count by one, leaving
all other registered instances in the list — so the count always equals the
number of reachable live instances. -/
theorem registry_splice_unsplice_invariant (app : AppRegistry) :
    (∀ w l, RegistryWf app l → w ∉ l →
        RegistryWf (Object.construct w app) (w :: l) ∧
        (Object.construct w app).object_count = app.object_count + 1) ∧
    (∀ x l1 l2, RegistryWf app (l1 ++ x :: l2) →
        RegistryWf (Object.unsplice x app) (l1 ++ l2) ∧
        (Object.unsplice x app).object_count = app.object_count - 1) := by
  constructor
  · intro w l hwf hw
    exact ⟨registryWf_construct app l w hwf hw, by simp [Object.construct]⟩
  · intro x l1 l2 hwf
    exact ⟨registryWf_unsplice app x l1 l2 hwf, unsplice_count x app⟩

/-- Witness for C7: splice object `5` into, and unsplice object `3` out of,
the singleton registry. -/
theorem registry_splice_unsplice_invariant_witness :
    RegistryWf (Object.construct 5 witnessApp) (5 :: [3]) ∧
    RegistryWf (Object.unsplice 3 witnessApp) ([] ++ []) :=
  ⟨((registry_splice_unsplice_invariant witnessApp).1 5 [3]
      ⟨by simp [chainFrom, witnessApp], by decide, rfl⟩ (by decide)).1,
   ((registry_splice_unsplice_invariant witnessApp).2 3 [] []
      ⟨by simp [chainFrom, witnessApp], by decide, rfl⟩).1⟩

/-- Claim C4: a next-referencing object is unbound at construction; the first
Strong Reference acquisition, while still unbound, binds it to the acquiring
thread's current role; and since the bound role is never `kInvalid`, a later
acquisition from any thread never rebinds or changes the bound role. -/
theorem nextReferencing_binds_at_most_once (c : Bool) (env env2 : ThreadEnv)
    (r : ThreadTag) (h : GetCurrentThreadTag env = .ok r) :
    (initialNextReferencing c).owner_thread_ = .kInvalid ∧
    Object.ObjectUpdateForAcquire (initialNextReferencing c) env =
      .ok { initialNextReferencing c with owner_thread_ := r } ∧
    r ≠ .kInvalid ∧
    (∀ s : AffinityState, s.owner_thread_ ≠ .kInvalid →
        Object.ObjectUpdateForAcquire s env2 = .ok s) := by
  refine ⟨rfl, ?_, getCurrentThreadTag_ne_invalid env r h, ?_⟩
  · simp [Object.ObjectUpdateForAcquire, Object.GetThreadOwnership,
      initialNextReferencing, h]
  · intro s hs
    simp [Object.ObjectUpdateForAcquire, hs]

/-- Witness for C4: the first acquisition from the logic thread binds to
`kLogic`, and an acquisition on an already-bound object leaves it as is. -/
theorem nextReferencing_binds_at_most_once_witness :
    Object.ObjectUpdateForAcquire (initialNextReferencing true) envLogic =
      .ok { initialNextReferencing true with owner_thread_ := .kLogic } ∧
    Object.ObjectUpdateForAcquire boundAudioState envLogic =
      .ok boundAudioState :=
  ⟨(nextReferencing_binds_at_most_once true envLogic envLogic .kLogic
      rfl).2.1,
   (nextReferencing_binds_at_most_once true envLogic envLogic .kLogic
      rfl).2.2.2 boundAudioState (by decide)⟩

/-- Claim C5: with checks enabled and the effective required role resolved
(class default — logic by default — when the mode is `kClassDefault`, the
bound role otherwise), the check succeeds with no effect when the calling
thread carries that role, and otherwise throws an exception naming the
expected role, the actual thread, and the object's description. -/
theorem objectThreadCheck_affinity (dflt : ThreadTag) (s : AffinityState)
    (env : ThreadEnv) (desc : String)
    (hen : s.thread_checks_enabled_ = true)
    (hv : effectiveRole dflt s ≠ .kInvalid) :
    Object.GetDefaultOwnerThread = ThreadTag.kLogic ∧
    (env.flagFor (effectiveRole dflt s) = true →
        Object.ObjectThreadCheck dflt s env desc = .ok ()) ∧
    (env.flagFor (effectiveRole dflt s) = false →
        Object.ObjectThreadCheck dflt s env desc = .error (.withMessage
          (doFailMessage (threadTagName (effectiveRole dflt s)) desc
            env))) := by
  refine ⟨rfl, ?_, ?_⟩ <;>
    intro hflag <;>
    cases ht : effectiveRole dflt s <;>
    rw [ht] at hflag <;>
    first
      | exact absurd ht hv
      | simp_all [Object.ObjectThreadCheck, ThreadEnv.flagFor, threadTagName]

/-- Witness for C5: a class-default (logic) object passes the check on the
logic thread and fails it on the audio thread with the expected message. -/
theorem objectThreadCheck_affinity_witness :
    Object.ObjectThreadCheck .kLogic classDefaultEnabled envLogic "<obj>" =
      .ok () ∧
    Object.ObjectThreadCheck .kLogic classDefaultEnabled envAudio "<obj>" =
      .error (.withMessage
        (doFailMessage (threadTagName (effectiveRole .kLogic
          classDefaultEnabled)) "<obj>" envAudio)) :=
  ⟨(objectThreadCheck_affinity .kLogic classDefaultEnabled envLogic "<obj>"
      rfl (by decide)).2.1 rfl,
   (objectThreadCheck_affinity .kLogic classDefaultEnabled envAudio "<obj>"
      rfl (by decide)).2.2 rfl⟩

/-- Claim C6: queried from a thread matching none of the known roles, the
thread identity query throws a fatal exception carrying the thread's name
rather than returning a default role; from a thread matching exactly one
known role it returns exactly that role. -/
theorem getCurrentThreadTag_total (env : ThreadEnv) :
    ((∀ t, env.flagFor t = false) →
        GetCurrentThreadTag env =
          .error ("unrecognized thread: " ++ env.threadName)) ∧
    (∀ r, r ≠ ThreadTag.kInvalid → env.HasOnlyRole r →
        GetCurrentThreadTag env = .ok r) := by
  constructor
  · intro hall
    have h1 : env.inMain = false := hall .kMain
    have h2 : env.inLogic = false := hall .kLogic
    have h3 : env.inAudio = false := hall .kAudio
    have h4 : env.inNetworkWrite = false := hall .kNetworkWrite
    have h5 : env.inAssets = false := hall .kAssets
    have h6 : env.inBGDynamics = false := hall .kBGDynamics
    simp [GetCurrentThreadTag, GetCurrentThreadName, h1, h2, h3, h4, h5, h6]
  · intro r hr hrole
    obtain ⟨hself, hothers⟩ := hrole
    cases r with
    | kInvalid => exact absurd rfl hr
    | kMain =>
      have ha : env.inMain = true := hself
      simp [GetCurrentThreadTag, ha]
    | kLogic =>
      have h1 : env.inMain = false := hothers .kMain (by decide)
      have ha : env.inLogic = true := hself
      simp [GetCurrentThreadTag, h1, ha]
    | kAudio =>
      have h1 : env.inMain = false := hothers .kMain (by decide)
      have h2 : env.inLogic = false := hothers .kLogic (by decide)
      have ha : env.inAudio = true := hself
      simp [GetCurrentThreadTag, h1, h2, ha]
    | kNetworkWrite =>
      have h1 : env.inMain = false := hothers .kMain (by decide)
      have h2 : env.inLogic = false := hothers .kLogic (by decide)
      have h3 : env.inAudio = false := hothers .kAudio (by decide)
      have ha : env.inNetworkWrite = true := hself
      simp [GetCurrentThreadTag, h1, h2, h3, ha]
    | kAssets =>
      have h1 : env.inMain = false := hothers .kMain (by decide)
      have h2 : env.inLogic = false := hothers .kLogic (by decide)
      have h3 : env.inAudio = false := hothers .kAudio (by decide)
      have h4 : env.inNetworkWrite = false :=
        hothers .kNetworkWrite (by decide)
      have ha : env.inAssets = true := hself
      simp [GetCurrentThreadTag, h1, h2, h3, h4, ha]
    | kBGDynamics =>
      have h1 : env.inMain = false := hothers .kMain (by decide)
      have h2 : env.inLogic = false := hothers .kLogic (by decide)
      have h3 : env.inAudio = false := hothers .kAudio (by decide)
      have h4 : env.inNetworkWrite = false :=
        hothers .kNetworkWrite (by decide)
      have h5 : env.inAssets = false := hothers .kAssets (by decide)
      have ha : env.inBGDynamics = true := hself
      simp [GetCurrentThreadTag, h1, h2, h3, h4, h5, ha]

/-- Witness for C6: the roleless worker thread gets the fatal exception with
its name; the audio thread gets exactly `kAudio`. -/
theorem getCurrentThreadTag_total_witness :
    GetCurrentThreadTag envWorker =
      .error ("unrecognized thread: " ++ envWorker.threadName) ∧
    GetCurrentThreadTag envAudio = .ok .kAudio :=
  ⟨(getCurrentThreadTag_total envWorker).1 (by decide),
   (getCurrentThreadTag_total envAudio).2 .kAudio (by decide)
     ⟨by decide, by decide⟩⟩

/-- Claim C9: when the per-instance thread-checks-enabled flag is false, the
affinity check returns immediately — for every ownership mode, every bound
role, every calling thread, and every description — and never raises. -/
theorem threadCheck_disabled_noop (dflt : ThreadTag) (s : AffinityState)
    (env : ThreadEnv) (desc : String)
    (h : s.thread_checks_enabled_ = false) :
    Object.ObjectThreadCheck dflt s env desc = .ok () := by
  simp [Object.ObjectThreadCheck, h]

/-- Witness for C9 on the disabled fixture, checked from the roleless
worker thread. -/
theorem threadCheck_disabled_noop_witness :
    Object.ObjectThreadCheck .kLogic disabledState envWorker "<obj>" =
      .ok () :=
  threadCheck_disabled_noop .kLogic disabledState envWorker "<obj>" rfl

/-- Claim C10: a next-referencing object whose owner role is still unbound
fails an enabled affinity check from every thread — the default switch branch
throws a message-less exception — rather than passing or binding (the check
never mutates the state in the embedding). -/
theorem unbound_nextReferencing_check_throws (dflt : ThreadTag)
    (s : AffinityState) (env : ThreadEnv) (desc : String)
    (hen : s.thread_checks_enabled_ = true)
    (hm : s.thread_ownership_ = .kNextReferencing)
    (hu : s.owner_thread_ = .kInvalid) :
    Object.ObjectThreadCheck dflt s env desc = .error .noMessage := by
  have ht : effectiveRole dflt s = .kInvalid := by
    simp [effectiveRole, Object.GetThreadOwnership, hm, hu]
  simp [Object.ObjectThreadCheck, hen, ht]

/-- Witness for C10: the freshly constructed next-referencing object fails
the check even on the logic thread. -/
theorem unbound_nextReferencing_check_throws_witness :
    Object.ObjectThreadCheck .kLogic (initialNextReferencing true) envLogic
      "<obj>" = .error .noMessage :=
  unbound_nextReferencing_check_throws .kLogic (initialNextReferencing true)
    envLogic "<obj>" rfl rfl rfl

/-- Counterexample to claim C8: destroying a `MeshData` whose renderer data
is intact emits the leak diagnostic from `MeshData`'s own destructor, while
the object core's destructor-time diagnostic can only ever be the ref-count
warning — which differs from the leak message — so the core's diagnostic is
not what flags the leak (and `MeshData` has no object-core state at all). -/
theorem meshData_leak_not_core_diagnostic :
    MeshData.destructLog
        { renderer_data_ := some 0, type_ := 0, draw_type_ := 0 } =
      [meshLeakMessage] ∧
    destructorDiagnostics 0 = [] ∧
    destructorDiagnostics 1 = [refCountWarning] ∧
    meshLeakMessage ≠ refCountWarning :=
  ⟨rfl, rfl, rfl, by decide⟩

/-- Claim C8 as amended: `MeshData` is a standalone class (it does not derive
from the object core); its own destructor logs the resource-leak error iff
the renderer data is still loaded at destruction, and after `Unload` the
destructor emits no diagnostic. -/
theorem meshData_own_destructor_flags_leak (m : MeshData) :
    (MeshData.destructLog m = [meshLeakMessage] ↔
        m.renderer_data_.isSome = true) ∧
    MeshData.destructLog (MeshData.Unload m) = [] := by
  constructor
  · unfold MeshData.destructLog
    by_cases h : m.renderer_data_.isSome <;> simp [h]
  · simp [MeshData.destructLog, MeshData.Unload]

end Ballistica
